import Mathlib

/-!
Verification of the pdf_to_markdown converter (src/src/converter.py,
src/src/models.py) through a shallow embedding in Lean 4.

Modeling conventions:
* PDF coordinates (`x0`, `top`, bounding-box edges) are exact rationals;
  Python's binary floating point is out of scope, and `round(x, 1)` is
  embedded as exact banker's rounding of a rational to one decimal place.
* Python strings are Lean `String`s; rendering functions that assemble
  strings piece by piece are embedded over `List Char` (a `String`'s
  `data`) and wrapped back into `String` at the boundary.
* The pdfplumber collaborators (`find_tables`, `outside_bbox`,
  `extract_text_lines`, `Table.extract`) are external dependencies: their
  results are passed to the embedded functions as parameters, and a call
  that may raise is modeled as an `Except`-valued parameter (the spec
  treats these collaborators as out of scope).
-/

set_option maxHeartbeats 1000000

/-- A rendered character of a page (`page.chars` entry): horizontal offset
`x0`, vertical offset `top`, and the rendered text. -/
structure Glyph where
  x0 : ℚ
  top : ℚ
  text : String
deriving DecidableEq, Repr

/-- Python's `round(x, 1)` expressed as a count of tenths: round `10 * q`
half to even (banker's rounding) to an integer, computed on the numerator
and denominator of the rational.  `f` is the floor of `10 * q` and
`rnum / d` its fractional part, compared against 1/2 by
cross-multiplication.  Two values of `round(x, 1)` are equal exactly when
their counts of tenths are equal, so the integer faithfully represents the
rounded coordinate for key comparison. -/
def roundTenths (q : ℚ) : ℤ :=
  let n := q.num * 10
  let d : ℤ := (q.den : ℤ)
  let f := Int.fdiv n d
  let rnum := n - f * d
  if 2 * rnum < d then f
  else if d < 2 * rnum then f + 1
  else if f % 2 = 0 then f else f + 1

/-- The deduplication key of converter.py lines 43-47:
`(round(char['x0'], 1), round(char['top'], 1), char['text'])`, with the
two rounded coordinates represented by their counts of tenths. -/
abbrev GKey := ℤ × ℤ × String

/-- Key used by `deduplicate_page` to detect duplicate glyph artifacts. -/
def glyphKey (g : Glyph) : GKey := (roundTenths g.x0, roundTenths g.top, g.text)

/-- The scan of converter.py lines 38-50 combined with the index filter of
lines 53-67, expressed directly on the value of the char list: walk the
chars in order, keep a char exactly when its key has not been seen before,
and record the key as seen. -/
def dedupGo : List Glyph → List GKey → List Glyph
  | [], _ => []
  | g :: rest, seen =>
    if glyphKey g ∈ seen then dedupGo rest seen
    else g :: dedupGo rest (glyphKey g :: seen)

/-- Embedding of `deduplicate_page` (converter.py lines 19-69), as the transformation it
performs on the page's char list.  The source's fast path (returning the
page unchanged when nothing was filtered) and its filtered-page path both
yield exactly the first occurrence of each key, in original order. -/
def deduplicate_page (chars : List Glyph) : List Glyph := dedupGo chars []

lemma dedupGo_sublist (gs : List Glyph) (seen : List GKey) :
    (dedupGo gs seen).Sublist gs := by
  induction gs generalizing seen with
  | nil => simp [dedupGo]
  | cons g rest ih =>
    rw [dedupGo]
    split
    · exact (ih seen).cons g
    · exact (ih _).cons₂ g

lemma dedupGo_key_not_seen {gs : List Glyph} {seen : List GKey} {g : Glyph}
    (hg : g ∈ dedupGo gs seen) : glyphKey g ∉ seen := by
  induction gs generalizing seen with
  | nil => simp [dedupGo] at hg
  | cons h rest ih =>
    rw [dedupGo] at hg
    split at hg
    · exact ih hg
    · rcases List.mem_cons.mp hg with rfl | hmem
      · assumption
      · have := ih hmem
        intro hcontra
        exact this (List.mem_cons_of_mem _ hcontra)

lemma dedupGo_nodup (gs : List Glyph) (seen : List GKey) :
    ((dedupGo gs seen).map glyphKey).Nodup := by
  induction gs generalizing seen with
  | nil => simp [dedupGo]
  | cons g rest ih =>
    rw [dedupGo]
    split
    · exact ih seen
    · rw [List.map_cons, List.nodup_cons]
      refine ⟨?_, ih _⟩
      intro hmem
      rcases List.mem_map.mp hmem with ⟨g', hg', hkey⟩
      have := dedupGo_key_not_seen hg'
      exact this (hkey ▸ List.mem_cons_self _ _)

lemma dedupGo_find? (gs : List Glyph) (seen : List GKey) (k : GKey)
    (hk : k ∉ seen) :
    (dedupGo gs seen).find? (fun g => decide (glyphKey g = k)) =
      gs.find? (fun g => decide (glyphKey g = k)) := by
  induction gs generalizing seen with
  | nil => simp [dedupGo]
  | cons g rest ih =>
    rw [dedupGo]
    by_cases hgk : glyphKey g = k
    · have hgseen : glyphKey g ∉ seen := hgk ▸ hk
      rw [if_neg hgseen]
      rw [List.find?_cons_of_pos _ (by simpa using hgk),
        List.find?_cons_of_pos _ (by simpa using hgk)]
    · rw [List.find?_cons_of_neg _ (by simpa using hgk)]
      split
      · exact ih seen hk
      · rw [List.find?_cons_of_neg _ (by simpa using hgk)]
        refine ih _ ?_
        intro hmem
        rcases List.mem_cons.mp hmem with heq | hmem'
        · exact hgk heq.symm
        · exact hk hmem'

/-- C2: `deduplicate_page` keeps, in original relative order, exactly one
glyph per distinct key (x0 rounded to 1 decimal, top rounded to 1 decimal,
text) — namely the first occurrence of each key — and a glyph whose
rounded position is shared by no other glyph is never removed. -/
theorem dedup_first_occurrence_spec (chars : List Glyph) :
    (deduplicate_page chars).Sublist chars ∧
    ((deduplicate_page chars).map glyphKey).Nodup ∧
    (∀ k : GKey, (deduplicate_page chars).find? (fun g => decide (glyphKey g = k)) =
      chars.find? (fun g => decide (glyphKey g = k))) ∧
    (∀ g ∈ chars, (∀ g' ∈ chars, glyphKey g' = glyphKey g → g' = g) →
      g ∈ deduplicate_page chars) := by
  refine ⟨dedupGo_sublist chars [], dedupGo_nodup chars [], ?_, ?_⟩
  · intro k
    exact dedupGo_find? chars [] k (by simp)
  · intro g hg huniq
    have hfind : chars.find? (fun g' => decide (glyphKey g' = glyphKey g)) = some g := by
      have hsome : (chars.find? (fun g' => decide (glyphKey g' = glyphKey g))).isSome := by
        rw [List.find?_isSome]
        exact ⟨g, hg, by simp⟩
      rcases Option.isSome_iff_exists.mp hsome with ⟨h, hh⟩
      have hmem := List.mem_of_find?_eq_some hh
      have hkey : glyphKey h = glyphKey g := by
        have := List.find?_some hh
        simpa using this
      rw [hh, huniq h hmem hkey]
    have := dedupGo_find? chars [] (glyphKey g) (by simp)
    rw [hfind] at this
    exact List.mem_of_find?_eq_some this

/-- Witness for C2 at a concrete page: the duplicated glyph at (0,0) is
kept (once), as is the glyph at a distinct position. -/
theorem dedup_first_occurrence_spec_witness :
    (⟨0, 0, "a"⟩ : Glyph) ∈ deduplicate_page [⟨0, 0, "a"⟩, ⟨0, 0, "a"⟩, ⟨5, 0, "b"⟩] := by
  have h := dedup_first_occurrence_spec [⟨0, 0, "a"⟩, ⟨0, 0, "a"⟩, ⟨5, 0, "b"⟩]
  exact h.2.2.2 ⟨0, 0, "a"⟩ (by decide) (by decide)

lemma dedupGo_of_nodup (gs : List Glyph) (seen : List GKey)
    (h1 : ∀ g ∈ gs, glyphKey g ∉ seen) (h2 : (gs.map glyphKey).Nodup) :
    dedupGo gs seen = gs := by
  induction gs generalizing seen with
  | nil => simp [dedupGo]
  | cons g rest ih =>
    rw [dedupGo, if_neg (h1 g (List.mem_cons_self _ _))]
    rw [List.map_cons, List.nodup_cons] at h2
    congr 1
    refine ih _ ?_ h2.2
    intro g' hg'
    intro hmem
    rcases List.mem_cons.mp hmem with heq | hmem'
    · exact h2.1 (heq ▸ List.mem_map_of_mem glyphKey hg')
    · exact h1 g' (List.mem_cons_of_mem _ hg') hmem'

/-- C3: deduplication is idempotent — applying `deduplicate_page` to its
own result returns that result unchanged. -/
theorem dedup_idempotent (chars : List Glyph) :
    deduplicate_page (deduplicate_page chars) = deduplicate_page chars := by
  unfold deduplicate_page
  exact dedupGo_of_nodup _ [] (by simp) (dedupGo_nodup chars [])

/-- The whitespace test of Python `str.split()` (ASCII whitespace; the
sources only ever feed PDF cell text through it). -/
def pyIsSpace (c : Char) : Bool :=
  c == ' ' || c == '\t' || c == '\n' || c == '\r' || c == '\x0b' || c == '\x0c'

/-- Recursion worker for `splitWs`, structural on a fuel bound so that the
kernel can evaluate it; the fuel never runs out when seeded with the
length of the list. -/
def splitWsF : Nat → List Char → List (List Char)
  | _, [] => []
  | 0, _ :: _ => []
  | fuel + 1, c :: cs =>
    if pyIsSpace c then splitWsF fuel cs
    else (c :: cs.takeWhile (fun d => !pyIsSpace d)) ::
      splitWsF fuel (cs.dropWhile (fun d => !pyIsSpace d))

/-- Python `str.split()` with no separator: skip whitespace, cut out the
maximal runs of non-whitespace characters. -/
def splitWs (l : List Char) : List (List Char) := splitWsF l.length l

lemma length_dropWhile_le (p : Char → Bool) (l : List Char) :
    (l.dropWhile p).length ≤ l.length :=
  (List.dropWhile_suffix p).sublist.length_le

lemma splitWsF_nil (fuel : Nat) : splitWsF fuel [] = [] := by
  cases fuel <;> rfl

lemma splitWsF_congr : ∀ (fuel : Nat) (l : List Char), l.length ≤ fuel →
    splitWsF fuel l = splitWs l := by
  intro fuel
  induction fuel using Nat.strong_induction_on with
  | _ f ih =>
    intro l hl
    match l with
    | [] =>
      rw [splitWsF_nil]
      unfold splitWs
      rw [splitWsF_nil]
    | c :: cs =>
      cases f with
      | zero => exact absurd hl (by simp)
      | succ g =>
        have hcs : cs.length ≤ g := by simpa using hl
        unfold splitWs
        rw [List.length_cons]
        simp only [splitWsF]
        by_cases hc : pyIsSpace c
        · rw [if_pos hc, if_pos hc, ih g (by omega) cs hcs,
            ih cs.length (by omega) cs le_rfl]
        · have hdl := length_dropWhile_le (fun d => !pyIsSpace d) cs
          rw [if_neg hc, if_neg hc, ih g (by omega) _ (le_trans hdl hcs),
            ih cs.length (by omega) _ hdl]

/-- Unfolding: a leading whitespace character is skipped. -/
lemma splitWs_cons_ws {c : Char} (cs : List Char) (h : pyIsSpace c = true) :
    splitWs (c :: cs) = splitWs cs := by
  unfold splitWs
  rw [List.length_cons]
  simp only [splitWsF, if_pos h]

/-- Unfolding: a leading non-whitespace character starts a word spanning
the maximal non-whitespace run. -/
lemma splitWs_cons_nonws {c : Char} (cs : List Char) (h : pyIsSpace c = false) :
    splitWs (c :: cs) = (c :: cs.takeWhile (fun d => !pyIsSpace d)) ::
      splitWs (cs.dropWhile (fun d => !pyIsSpace d)) := by
  unfold splitWs
  rw [List.length_cons]
  simp only [splitWsF, h, Bool.false_eq_true, if_false]
  congr 1
  exact splitWsF_congr cs.length _ (length_dropWhile_le _ cs)

/-- Python `sep.join(parts)`. -/
def joinSep (sep : List Char) : List (List Char) → List Char
  | [] => []
  | [w] => w
  | w :: rest => w ++ sep ++ joinSep sep rest

/-- Python `' '.join(str(cell).split())` on the character list of the cell. -/
def sanitizeChars (l : List Char) : List Char := joinSep [' '] (splitWs l)

/-- Embedding of `sanitize_cell` (converter.py lines 123-135): a missing cell becomes
the empty string, any other cell is stringified (cells are already
strings, pdfplumber extracts `Optional[str]` cells) and whitespace-
normalized by `' '.join(str(cell).split())`. -/
def sanitize_cell (cell : Option String) : String :=
  match cell with
  | none => ""
  | some s => ⟨sanitizeChars s.data⟩

/-- Recursion worker for `replaceRuns`, structural on a fuel bound. -/
def replaceRunsF : Nat → List Char → List Char
  | _, [] => []
  | 0, _ :: _ => []
  | fuel + 1, c :: cs =>
    if pyIsSpace c then ' ' :: replaceRunsF fuel (cs.dropWhile pyIsSpace)
    else c :: replaceRunsF fuel cs

/-- Modelled from the spec sentence of C7: "every run of whitespace
characters (including newlines) replaced by a single space", with no
trimming — each maximal whitespace run, wherever it sits, becomes one
space. -/
def replaceRuns (l : List Char) : List Char := replaceRunsF l.length l

lemma replaceRunsF_nil (fuel : Nat) : replaceRunsF fuel [] = [] := by
  cases fuel <;> rfl

lemma replaceRunsF_congr : ∀ (fuel : Nat) (l : List Char), l.length ≤ fuel →
    replaceRunsF fuel l = replaceRuns l := by
  intro fuel
  induction fuel using Nat.strong_induction_on with
  | _ f ih =>
    intro l hl
    match l with
    | [] =>
      rw [replaceRunsF_nil]
      unfold replaceRuns
      rw [replaceRunsF_nil]
    | c :: cs =>
      cases f with
      | zero => exact absurd hl (by simp)
      | succ g =>
        have hcs : cs.length ≤ g := by simpa using hl
        unfold replaceRuns
        rw [List.length_cons]
        simp only [replaceRunsF]
        by_cases hc : pyIsSpace c
        · have hdl := length_dropWhile_le pyIsSpace cs
          rw [if_pos hc, if_pos hc, ih g (by omega) _ (le_trans hdl hcs),
            ih cs.length (by omega) _ hdl]
        · rw [if_neg hc, if_neg hc, ih g (by omega) cs hcs,
            ih cs.length (by omega) cs le_rfl]

/-- Unfolding: a leading whitespace run collapses to one space. -/
lemma replaceRuns_cons_ws {c : Char} (cs : List Char) (h : pyIsSpace c = true) :
    replaceRuns (c :: cs) = ' ' :: replaceRuns (cs.dropWhile pyIsSpace) := by
  unfold replaceRuns
  rw [List.length_cons]
  simp only [replaceRunsF, if_pos h]
  congr 1
  exact replaceRunsF_congr cs.length _ (length_dropWhile_le _ cs)

/-- Unfolding: a non-whitespace character is copied through. -/
lemma replaceRuns_cons_nonws {c : Char} (cs : List Char) (h : pyIsSpace c = false) :
    replaceRuns (c :: cs) = c :: replaceRuns cs := by
  unfold replaceRuns
  rw [List.length_cons]
  simp only [replaceRunsF, h, Bool.false_eq_true, if_false]

/-- Leading and trailing whitespace removal. -/
def trimWs (l : List Char) : List Char :=
  ((l.dropWhile pyIsSpace).reverse.dropWhile pyIsSpace).reverse

/-- The amended C7 contract: trim leading and trailing whitespace, then
replace every remaining whitespace run by a single space. -/
def specSanitize (l : List Char) : List Char := replaceRuns (trimWs l)

/-- C7 counterexample: the claim says a whitespace run is replaced by a
single space; on the cell `" a"` the code instead removes the leading
run entirely (`"a"`), differing from the claimed `" a"`. -/
theorem sanitize_counterexample :
    sanitize_cell (some " a") = "a" ∧
    String.mk (replaceRuns (" a").data) = " a" ∧
    sanitize_cell (some " a") ≠ String.mk (replaceRuns (" a").data) := by
  refine ⟨by decide, by decide, by decide⟩

lemma splitWs_all_ws {l : List Char} (h : ∀ c ∈ l, pyIsSpace c = true) :
    splitWs l = [] := by
  induction l with
  | nil => rfl
  | cons c cs ih =>
    rw [splitWs_cons_ws cs (h c (List.mem_cons_self _ _))]
    exact ih (fun d hd => h d (List.mem_cons_of_mem _ hd))

lemma splitWs_dropWhile (l : List Char) :
    splitWs (l.dropWhile pyIsSpace) = splitWs l := by
  induction l with
  | nil => rfl
  | cons c cs ih =>
    rw [List.dropWhile_cons]
    by_cases hc : pyIsSpace c
    · rw [if_pos hc, ih, splitWs_cons_ws cs hc]
    · rw [if_neg hc]

lemma takeWhile_append_stop (p : Char → Bool) (a w : List Char)
    (hw : ∀ x, w.head? = some x → p x = false) :
    (a ++ w).takeWhile p = a.takeWhile p := by
  induction a with
  | nil =>
    simp only [List.nil_append, List.takeWhile_nil]
    cases w with
    | nil => rfl
    | cons x xs => rw [List.takeWhile_cons, hw x rfl]; simp
  | cons c a ih =>
    rw [List.cons_append, List.takeWhile_cons, List.takeWhile_cons]
    by_cases hpc : p c
    · rw [if_pos hpc, if_pos hpc, ih]
    · rw [if_neg hpc, if_neg hpc]

lemma dropWhile_append_stop (p : Char → Bool) (a w : List Char)
    (hw : ∀ x, w.head? = some x → p x = false) :
    (a ++ w).dropWhile p = a.dropWhile p ++ w := by
  induction a with
  | nil =>
    simp only [List.nil_append, List.dropWhile_nil]
    cases w with
    | nil => rfl
    | cons x xs => rw [List.dropWhile_cons, hw x rfl]; simp
  | cons c a ih =>
    rw [List.cons_append, List.dropWhile_cons, List.dropWhile_cons]
    by_cases hpc : p c
    · rw [if_pos hpc, if_pos hpc, ih]
    · rw [if_neg hpc, if_neg hpc, List.cons_append]

lemma splitWs_append_ws_aux : ∀ (n : Nat) (m w : List Char), m.length ≤ n →
    (∀ x ∈ w, pyIsSpace x = true) → splitWs (m ++ w) = splitWs m := by
  intro n
  induction n using Nat.strong_induction_on with
  | _ n ih =>
    intro m w hm hw
    match m with
    | [] =>
      rw [List.nil_append, splitWs_all_ws hw]
      rfl
    | c :: cs =>
      cases n with
      | zero => exact absurd hm (by simp)
      | succ k =>
        have hcs : cs.length ≤ k := by simpa using hm
        by_cases hc : pyIsSpace c
        · rw [List.cons_append, splitWs_cons_ws _ hc, splitWs_cons_ws cs hc]
          exact ih k (by omega) cs w hcs hw
        · have hc' : pyIsSpace c = false := by simpa using hc
          have hstop : ∀ x, w.head? = some x → (!pyIsSpace x) = false := by
            intro x hx
            cases w with
            | nil => simp at hx
            | cons y ys =>
              simp only [List.head?_cons, Option.some_inj] at hx
              subst hx
              simp [hw y (List.mem_cons_self _ _)]
          rw [List.cons_append, splitWs_cons_nonws _ hc', splitWs_cons_nonws cs hc',
            takeWhile_append_stop _ cs w hstop, dropWhile_append_stop _ cs w hstop]
          congr 1
          exact ih k (by omega) _ w (le_trans (length_dropWhile_le _ cs) hcs) hw

lemma splitWs_append_ws (m w : List Char) (hw : ∀ x ∈ w, pyIsSpace x = true) :
    splitWs (m ++ w) = splitWs m :=
  splitWs_append_ws_aux m.length m w le_rfl hw

lemma splitWs_trimWs (l : List Char) : splitWs (trimWs l) = splitWs l := by
  unfold trimWs
  have h1 : List.takeWhile pyIsSpace (l.dropWhile pyIsSpace).reverse ++
      List.dropWhile pyIsSpace (l.dropWhile pyIsSpace).reverse =
      (l.dropWhile pyIsSpace).reverse :=
    List.takeWhile_append_dropWhile pyIsSpace (l.dropWhile pyIsSpace).reverse
  have hdecomp : (List.dropWhile pyIsSpace (l.dropWhile pyIsSpace).reverse).reverse ++
      (List.takeWhile pyIsSpace (l.dropWhile pyIsSpace).reverse).reverse =
      l.dropWhile pyIsSpace := by
    rw [← List.reverse_append, h1, List.reverse_reverse]
  have hws : ∀ x ∈ (List.takeWhile pyIsSpace (l.dropWhile pyIsSpace).reverse).reverse,
      pyIsSpace x = true := by
    intro x hx
    exact List.mem_takeWhile_imp (List.mem_reverse.mp hx)
  calc splitWs (List.dropWhile pyIsSpace (l.dropWhile pyIsSpace).reverse).reverse
      = splitWs ((List.dropWhile pyIsSpace (l.dropWhile pyIsSpace).reverse).reverse ++
        (List.takeWhile pyIsSpace (l.dropWhile pyIsSpace).reverse).reverse) :=
        (splitWs_append_ws _ _ hws).symm
    _ = splitWs (l.dropWhile pyIsSpace) := by rw [hdecomp]
    _ = splitWs l := splitWs_dropWhile l

lemma replaceRuns_nonws_prefix (t d : List Char) (ht : ∀ c ∈ t, pyIsSpace c = false) :
    replaceRuns (t ++ d) = t ++ replaceRuns d := by
  induction t with
  | nil => simp
  | cons c cs ih =>
    rw [List.cons_append, replaceRuns_cons_nonws _ (ht c (List.mem_cons_self _ _)),
      ih (fun x hx => ht x (List.mem_cons_of_mem _ hx)), List.cons_append]

lemma dropWhile_head_false {p : Char → Bool} :
    ∀ {l : List Char} {x : Char} {xs : List Char},
      l.dropWhile p = x :: xs → p x = false := by
  intro l
  induction l with
  | nil => intro x xs h; simp at h
  | cons c cs ih =>
    intro x xs h
    by_cases hpc : p c
    · rw [List.dropWhile_cons, if_pos hpc] at h
      exact ih h
    · rw [List.dropWhile_cons, if_neg hpc] at h
      cases h
      simpa using hpc

lemma getLast?_of_suffix {s l : List Char} (h : s <:+ l) (hne : s ≠ []) :
    s.getLast? = l.getLast? := by
  obtain ⟨t, rfl⟩ := h
  exact (List.getLast?_append_of_ne_nil t hne).symm

lemma joinSep_cons_of_ne (sep w : List Char) {rest : List (List Char)}
    (h : rest ≠ []) : joinSep sep (w :: rest) = w ++ sep ++ joinSep sep rest := by
  cases rest with
  | nil => exact absurd rfl h
  | cons r rs => rfl

lemma joinWords_eq_replaceRuns_aux : ∀ (n : Nat) (l : List Char), l.length ≤ n →
    (∀ c, l.head? = some c → pyIsSpace c = false) →
    (∀ c, l.getLast? = some c → pyIsSpace c = false) →
    joinSep [' '] (splitWs l) = replaceRuns l := by
  intro n
  induction n using Nat.strong_induction_on with
  | _ n ih =>
    intro l hl hhead hlast
    match l with
    | [] => rfl
    | c :: cs =>
      cases n with
      | zero => exact absurd hl (by simp)
      | succ k =>
        have hcs : cs.length ≤ k := by simpa using hl
        have hc : pyIsSpace c = false := hhead c rfl
        have hsplit : cs.takeWhile (fun d => !pyIsSpace d) ++
            cs.dropWhile (fun d => !pyIsSpace d) = cs :=
          List.takeWhile_append_dropWhile (fun d => !pyIsSpace d) cs
        have htnonws : ∀ x ∈ cs.takeWhile (fun d => !pyIsSpace d), pyIsSpace x = false := by
          intro x hx
          simpa using List.mem_takeWhile_imp hx
        have hrr : replaceRuns cs = cs.takeWhile (fun d => !pyIsSpace d) ++
            replaceRuns (cs.dropWhile (fun d => !pyIsSpace d)) := by
          conv_lhs => rw [← hsplit]
          exact replaceRuns_nonws_prefix _ _ htnonws
        rw [splitWs_cons_nonws cs hc, replaceRuns_cons_nonws cs hc, hrr]
        cases hd : cs.dropWhile (fun d => !pyIsSpace d) with
        | nil =>
          rw [show replaceRuns [] = [] from rfl, List.append_nil,
            show splitWs ([] : List Char) = [] from rfl]
          rfl
        | cons x xs =>
          have hx : pyIsSpace x = true := by
            have := dropWhile_head_false hd
            simpa using this
          have h0 : (cs.takeWhile (fun d => !pyIsSpace d)).length + (xs.length + 1)
              = cs.length := by
            have h1 := congrArg List.length hsplit
            rw [hd] at h1
            simpa [List.length_append] using h1
          rw [splitWs_cons_ws xs hx, replaceRuns_cons_ws xs hx,
            ← splitWs_dropWhile xs]
          cases he : xs.dropWhile pyIsSpace with
          | nil =>
            exfalso
            have hxsws : ∀ y ∈ xs, pyIsSpace y = true := by
              rw [← List.dropWhile_eq_nil_iff]
              exact he
            have hdws : ∀ y ∈ x :: xs, pyIsSpace y = true := by
              intro y hy
              rcases List.mem_cons.mp hy with rfl | hy'
              · exact hx
              · exact hxsws y hy'
            have hlform : c :: cs = (c :: cs.takeWhile (fun d => !pyIsSpace d)) ++ (x :: xs) := by
              rw [List.cons_append]
              congr 1
              rw [← hd, hsplit]
            have hlast' : (c :: cs).getLast? = (x :: xs).getLast? := by
              rw [hlform]
              exact List.getLast?_append_of_ne_nil _ (by simp)
            have hmem := List.getLast?_eq_getLast_of_ne_nil
              (List.cons_ne_nil x xs)
            have hlastmem : (x :: xs).getLast (List.cons_ne_nil x xs) ∈ x :: xs :=
              List.getLast_mem _
            have := hlast _ (by rw [hlast', hmem])
            rw [hdws _ hlastmem] at this
            exact absurd this (by simp)
          | cons y ys =>
            have hy : pyIsSpace y = false := dropWhile_head_false he
            have hsne : splitWs (y :: ys) ≠ [] := by
              rw [splitWs_cons_nonws ys hy]
              simp
            rw [joinSep_cons_of_ne _ _ hsne]
            have hlen : (y :: ys).length ≤ k := by
              have h1 : (y :: ys).length ≤ xs.length := by
                rw [← he]
                exact length_dropWhile_le pyIsSpace xs
              simp only [List.length_cons] at h1 ⊢
              omega
            have hsuffix : (y :: ys) <:+ c :: cs := by
              have h1 : (y :: ys) <:+ xs := by
                rw [← he]
                exact List.dropWhile_suffix pyIsSpace
              have h2 : xs <:+ c :: cs := by
                refine ⟨(c :: cs.takeWhile (fun d => !pyIsSpace d)) ++ [x], ?_⟩
                rw [List.append_assoc, List.singleton_append, List.cons_append]
                congr 1
                rw [← hd, hsplit]
              exact h1.trans h2
            have hlaste : ∀ c', (y :: ys).getLast? = some c' → pyIsSpace c' = false := by
              intro c' hc'
              refine hlast c' ?_
              rw [← getLast?_of_suffix hsuffix (by simp)]
              exact hc'
            have hheade : ∀ c', (y :: ys).head? = some c' → pyIsSpace c' = false := by
              intro c' hc'
              simp only [List.head?_cons, Option.some_inj] at hc'
              exact hc' ▸ hy
            rw [ih k (by omega) (y :: ys) hlen hheade hlaste]
            simp

/-- Key fact: `' '.join(str.split())` equals: trim leading and trailing whitespace,
then collapse every interior whitespace run to one space. -/
lemma sanitizeChars_eq_specSanitize (l : List Char) :
    sanitizeChars l = specSanitize l := by
  unfold sanitizeChars specSanitize
  rw [← splitWs_trimWs l]
  by_cases htriv : trimWs l = []
  · rw [htriv]
    rfl
  · have hm : ∀ c, (l.dropWhile pyIsSpace).head? = some c → pyIsSpace c = false := by
      intro c hc
      cases hdw : l.dropWhile pyIsSpace with
      | nil => rw [hdw] at hc; simp at hc
      | cons z zs =>
        rw [hdw] at hc
        simp only [List.head?_cons, Option.some_inj] at hc
        exact hc ▸ dropWhile_head_false hdw
    have hrne : (l.dropWhile pyIsSpace).reverse.dropWhile pyIsSpace ≠ [] := by
      intro hcontra
      apply htriv
      unfold trimWs
      rw [hcontra]
      rfl
    refine joinWords_eq_replaceRuns_aux (trimWs l).length _ le_rfl ?_ ?_
    · intro c hc
      unfold trimWs at hc
      rw [List.head?_reverse] at hc
      have hglast : ((l.dropWhile pyIsSpace).reverse.dropWhile pyIsSpace).getLast? =
          (l.dropWhile pyIsSpace).reverse.getLast? :=
        getLast?_of_suffix (List.dropWhile_suffix pyIsSpace) hrne
      rw [hglast, List.getLast?_reverse] at hc
      exact hm c hc
    · intro c hc
      unfold trimWs at hc
      rw [List.getLast?_reverse] at hc
      cases hdw : (l.dropWhile pyIsSpace).reverse.dropWhile pyIsSpace with
      | nil => exact absurd hdw hrne
      | cons z zs =>
        rw [hdw] at hc
        simp only [List.head?_cons, Option.some_inj] at hc
        exact hc ▸ dropWhile_head_false hdw

/-- C7 (amended): a missing cell sanitizes to the empty string; any other
cell is stringified, its leading and trailing whitespace is removed, and
every remaining whitespace run is replaced by a single space. -/
theorem sanitize_amended :
    sanitize_cell none = "" ∧
    ∀ s : String, sanitize_cell (some s) = String.mk (specSanitize s.data) := by
  refine ⟨rfl, ?_⟩
  intro s
  show String.mk (sanitizeChars s.data) = String.mk (specSanitize s.data)
  rw [sanitizeChars_eq_specSanitize]

lemma splitWs_words_aux : ∀ (n : Nat) (l : List Char), l.length ≤ n →
    ∀ w ∈ splitWs l, w ≠ [] ∧ ∀ c ∈ w, pyIsSpace c = false := by
  intro n
  induction n using Nat.strong_induction_on with
  | _ n ih =>
    intro l hl w hw
    match l with
    | [] => simp [show splitWs ([] : List Char) = [] from rfl] at hw
    | c :: cs =>
      cases n with
      | zero => exact absurd hl (by simp)
      | succ k =>
        have hcs : cs.length ≤ k := by simpa using hl
        by_cases hc : pyIsSpace c
        · rw [splitWs_cons_ws cs hc] at hw
          exact ih k (by omega) cs hcs w hw
        · have hc' : pyIsSpace c = false := by simpa using hc
          rw [splitWs_cons_nonws cs hc'] at hw
          rcases List.mem_cons.mp hw with rfl | hw'
          · refine ⟨by simp, ?_⟩
            intro d hd
            rcases List.mem_cons.mp hd with rfl | hd'
            · exact hc'
            · simpa using List.mem_takeWhile_imp hd'
          · exact ih k (by omega) _ (le_trans (length_dropWhile_le _ cs) hcs) w hw'

lemma splitWs_words (l : List Char) :
    ∀ w ∈ splitWs l, w ≠ [] ∧ ∀ c ∈ w, pyIsSpace c = false :=
  splitWs_words_aux l.length l le_rfl

lemma joinWords_ne_nil (S : List (List Char)) (hS : ∀ w ∈ S, w ≠ [])
    (h : S ≠ []) : joinSep [' '] S ≠ [] := by
  match S with
  | [] => exact absurd rfl h
  | [w] => exact hS w (List.mem_cons_self _ _)
  | w :: r :: rs =>
    rw [joinSep_cons_of_ne _ _ (by simp)]
    have := hS w (List.mem_cons_self _ _)
    simp [this]

lemma joinWords_head (S : List (List Char))
    (hS : ∀ w ∈ S, w ≠ [] ∧ ∀ c ∈ w, pyIsSpace c = false) :
    ∀ c, (joinSep [' '] S).head? = some c → pyIsSpace c = false := by
  match S with
  | [] => intro c hc; simp [joinSep] at hc
  | [w] =>
    intro c hc
    exact (hS w (List.mem_cons_self _ _)).2 c (List.mem_of_mem_head? hc)
  | w :: r :: rs =>
    intro c hc
    rw [joinSep_cons_of_ne _ _ (by simp), List.append_assoc,
      List.head?_append_of_ne_nil _ (hS w (List.mem_cons_self _ _)).1] at hc
    exact (hS w (List.mem_cons_self _ _)).2 c (List.mem_of_mem_head? hc)

lemma joinWords_last (S : List (List Char))
    (hS : ∀ w ∈ S, w ≠ [] ∧ ∀ c ∈ w, pyIsSpace c = false) :
    ∀ c, (joinSep [' '] S).getLast? = some c → pyIsSpace c = false := by
  match S with
  | [] => intro c hc; simp [joinSep] at hc
  | [w] =>
    intro c hc
    exact (hS w (List.mem_cons_self _ _)).2 c (List.mem_of_mem_getLast? hc)
  | w :: r :: rs =>
    intro c hc
    have hrest : ∀ v ∈ r :: rs, v ≠ [] ∧ ∀ d ∈ v, pyIsSpace d = false :=
      fun v hv => hS v (List.mem_cons_of_mem _ hv)
    have hne : joinSep [' '] (r :: rs) ≠ [] :=
      joinWords_ne_nil _ (fun v hv => (hrest v hv).1) (by simp)
    rw [joinSep_cons_of_ne _ _ (by simp),
      List.getLast?_append_of_ne_nil _ hne] at hc
    exact joinWords_last (r :: rs) hrest c hc

/-- C10: the sanitized cell never has leading or trailing whitespace, and
a whitespace-only cell sanitizes to the empty string, indistinguishable
from a missing cell. -/
theorem sanitize_trims (cell : Option String) :
    (∀ c, (sanitize_cell cell).data.head? = some c → pyIsSpace c = false) ∧
    (∀ c, (sanitize_cell cell).data.getLast? = some c → pyIsSpace c = false) ∧
    (∀ s : String, cell = some s → (∀ c ∈ s.data, pyIsSpace c = true) →
      sanitize_cell cell = "" ∧ sanitize_cell cell = sanitize_cell none) := by
  cases cell with
  | none =>
    refine ⟨?_, ?_, ?_⟩
    · intro c hc; simp [sanitize_cell] at hc
    · intro c hc; simp [sanitize_cell] at hc
    · intro s hs; cases hs
  | some s =>
    have hdata : (sanitize_cell (some s)).data = joinSep [' '] (splitWs s.data) := rfl
    refine ⟨?_, ?_, ?_⟩
    · rw [hdata]
      exact joinWords_head _ (splitWs_words s.data)
    · rw [hdata]
      exact joinWords_last _ (splitWs_words s.data)
    · intro s' hs' hws
      cases hs'
      have : splitWs s.data = [] := splitWs_all_ws hws
      constructor
      · show String.mk (sanitizeChars s.data) = ""
        unfold sanitizeChars
        rw [this]
        rfl
      · show String.mk (sanitizeChars s.data) = ""
        unfold sanitizeChars
        rw [this]
        rfl

/-- Witness for C10 at a concrete whitespace-only cell. -/
theorem sanitize_trims_witness :
    sanitize_cell (some " \x0c\n ") = "" ∧
    sanitize_cell (some " \x0c\n ") = sanitize_cell none :=
  (sanitize_trims (some " \x0c\n ")).2.2 " \x0c\n " rfl (by decide)

/-- One Markdown table row (converter.py line 156):
`'| ' + ' | '.join(row) + ' |'` over the sanitized cells. -/
def mdRowChars (row : List (List Char)) : List Char :=
  ('|' :: ' ' :: joinSep [' ', '|', ' '] row) ++ [' ', '|']

/-- The header separator (converter.py line 160): `'|:--' * n + ':|'`. -/
def headerSepChars (n : Nat) : List Char :=
  (List.replicate n ['|', ':', '-', '-']).flatten ++ [':', '|']

/-- The line list built by the loop of converter.py lines 154-161: every
row becomes a Markdown row, and the header separator is appended right
after the first row, sized by that row's cell count. -/
def tableLinesChars : List (List (List Char)) → List (List Char)
  | [] => []
  | r :: rest => mdRowChars r :: headerSepChars r.length :: rest.map mdRowChars

/-- converter.py lines 151-152: sanitize every cell of every row. -/
def sanitizeTable (t : List (List (Option String))) : List (List (List Char)) :=
  t.map (fun row => row.map (fun c => (sanitize_cell c).data))

/-- Embedding of `convert_table_to_markdown` (converter.py lines 138-163), with the
table represented by the result of `table.extract()` (a list of rows of
optional cell strings; an extraction of `None` and of `[]` both take the
falsy early return). -/
def convert_table_to_markdown (t : List (List (Option String))) : String :=
  if t.isEmpty then "" else ⟨joinSep ['\n'] (tableLinesChars (sanitizeTable t))⟩

/-- C1 counterexample: on `[["A","B"],["1","2"]]` the code renders the
separator as `'|:--' * 2 + ':|'`, i.e. `|:--|:--:|`, not the claimed
`|:--:|:--:|`. -/
theorem table_end_to_end_counterexample :
    convert_table_to_markdown [[some "A", some "B"], [some "1", some "2"]] ≠
      "| A | B |\n|:--:|:--:|\n| 1 | 2 |" := by decide

/-- C1 (amended): the separator row is `'|:--'` repeated once per column
followed by a single final `':|'` — only the last column segment reads
`:--:` — so the example table renders with separator `|:--|:--:|`. -/
theorem table_end_to_end_amended :
    convert_table_to_markdown [[some "A", some "B"], [some "1", some "2"]] =
      "| A | B |\n|:--|:--:|\n| 1 | 2 |" := by decide

/-- Number of `'|'` characters in a rendered line. -/
def pipeCount (l : List Char) : Nat := (l.filter (fun c => c == '|')).length

/-- Column count of a rendered line, reading the cells as delimited by
`'|'`: one less than the number of pipes. -/
def colCount (l : List Char) : Nat := pipeCount l - 1

lemma pipeCount_append (a b : List Char) :
    pipeCount (a ++ b) = pipeCount a + pipeCount b := by
  unfold pipeCount
  rw [List.filter_append, List.length_append]

lemma pipeCount_eq_zero {w : List Char} (h : '|' ∉ w) : pipeCount w = 0 := by
  unfold pipeCount
  rw [List.length_eq_zero]
  induction w with
  | nil => rfl
  | cons c cs ih =>
    rw [List.filter_cons]
    have hc : (c == '|') = false := by
      simp only [beq_eq_false_iff_ne, ne_eq]
      intro hcontra
      exact h (hcontra ▸ List.mem_cons_self _ _)
    rw [hc]
    simp only [Bool.false_eq_true, if_false]
    exact ih (fun hm => h (List.mem_cons_of_mem _ hm))

lemma pipeCount_joinRow : ∀ (row : List (List Char)), row ≠ [] →
    (∀ w ∈ row, '|' ∉ w) →
    pipeCount (joinSep [' ', '|', ' '] row) + 1 = row.length := by
  intro row
  match row with
  | [] => intro h; exact absurd rfl h
  | [w] =>
    intro _ hfree
    show pipeCount w + 1 = 1
    rw [pipeCount_eq_zero (hfree w (List.mem_cons_self _ _))]
  | w :: r :: rs =>
    intro _ hfree
    rw [joinSep_cons_of_ne _ _ (by simp), pipeCount_append, pipeCount_append,
      pipeCount_eq_zero (hfree w (List.mem_cons_self _ _))]
    have hrest := pipeCount_joinRow (r :: rs) (by simp)
      (fun v hv => hfree v (List.mem_cons_of_mem _ hv))
    show 0 + 1 + pipeCount (joinSep [' ', '|', ' '] (r :: rs)) + 1 = (r :: rs).length + 1
    omega

lemma pipeCount_mdRow (row : List (List Char)) (hne : row ≠ [])
    (hfree : ∀ w ∈ row, '|' ∉ w) :
    pipeCount (mdRowChars row) = row.length + 1 := by
  unfold mdRowChars
  rw [pipeCount_append]
  have h1 : pipeCount ('|' :: ' ' :: joinSep [' ', '|', ' '] row) =
      1 + pipeCount (joinSep [' ', '|', ' '] row) := by
    show pipeCount (['|', ' '] ++ joinSep [' ', '|', ' '] row) = _
    rw [pipeCount_append, show pipeCount ['|', ' '] = 1 from by decide]
  have h2 := pipeCount_joinRow row hne hfree
  have h3 : pipeCount [' ', '|'] = 1 := by decide
  omega

lemma pipeCount_headerSep (n : Nat) : pipeCount (headerSepChars n) = n + 1 := by
  induction n with
  | zero => decide
  | succ k ih =>
    unfold headerSepChars at ih ⊢
    rw [List.replicate_succ, List.flatten_cons, List.append_assoc, pipeCount_append]
    have : pipeCount ['|', ':', '-', '-'] = 1 := by decide
    omega

/-- C5 counterexample: `[["a|b"]]` extracts to a non-empty rectangular
table (one row, one column), yet the rendered data row contains the
cell's own pipe and so has a different `'|'`-delimited column count than
the header separator. -/
theorem table_shape_counterexample :
    ¬ ∀ l ∈ tableLinesChars (sanitizeTable [[some "a|b"]]),
      colCount l = colCount (headerSepChars 1) := by decide

/-- C5 (amended): for a non-empty rectangular table with at least one
column whose sanitized cells contain no `'|'` character, the rendering
has extracted-row-count + 1 lines and every line has the same
`'|'`-delimited column count as the header separator. -/
theorem table_shape_amended (t : List (List (Option String))) (n : Nat)
    (hne : t ≠ []) (hrect : ∀ row ∈ t, row.length = n) (hn : 0 < n)
    (hfree : ∀ row ∈ t, ∀ c ∈ row, '|' ∉ (sanitize_cell c).data) :
    (tableLinesChars (sanitizeTable t)).length = t.length + 1 ∧
    (∀ l ∈ tableLinesChars (sanitizeTable t),
      colCount l = colCount (headerSepChars n)) ∧
    convert_table_to_markdown t =
      String.mk (joinSep ['\n'] (tableLinesChars (sanitizeTable t))) := by
  match t with
  | r :: rest =>
    have hrowlen : ∀ row ∈ r :: rest,
        (row.map (fun c => (sanitize_cell c).data)).length = n := by
      intro row hrow
      rw [List.length_map]
      exact hrect row hrow
    have hrowfree : ∀ row ∈ r :: rest,
        ∀ w ∈ row.map (fun c => (sanitize_cell c).data), '|' ∉ w := by
      intro row hrow w hw
      rcases List.mem_map.mp hw with ⟨c, hc, rfl⟩
      exact hfree row hrow c hc
    have hrowne : ∀ row ∈ r :: rest,
        row.map (fun c => (sanitize_cell c).data) ≠ [] := by
      intro row hrow
      have := hrowlen row hrow
      intro hcontra
      rw [hcontra] at this
      simp at this
      omega
    have hmdrow : ∀ row ∈ r :: rest,
        pipeCount (mdRowChars (row.map (fun c => (sanitize_cell c).data))) = n + 1 := by
      intro row hrow
      rw [pipeCount_mdRow _ (hrowne row hrow) (hrowfree row hrow), hrowlen row hrow]
    refine ⟨?_, ?_, ?_⟩
    · show (mdRowChars _ :: headerSepChars _ :: (List.map _ rest).map mdRowChars).length = _
      simp [List.length_map]
    · intro l hl
      have hsepn : (r.map (fun c => (sanitize_cell c).data)).length = n :=
        hrowlen r (List.mem_cons_self _ _)
      unfold colCount
      rw [pipeCount_headerSep n]
      show pipeCount l - 1 = n + 1 - 1
      rcases List.mem_cons.mp hl with rfl | hl1
      · rw [hmdrow r (List.mem_cons_self _ _)]
      · rcases List.mem_cons.mp hl1 with rfl | hl2
        · rw [hsepn, pipeCount_headerSep n]
        · rcases List.mem_map.mp hl2 with ⟨row', hrow', rfl⟩
          rcases List.mem_map.mp hrow' with ⟨row, hrow, rfl⟩
          rw [hmdrow row (List.mem_cons_of_mem _ hrow)]
    · unfold convert_table_to_markdown
      rw [if_neg (by simp)]

/-- Witness for C5 (amended) at the example table. -/
theorem table_shape_amended_witness :
    (tableLinesChars (sanitizeTable [[some "A", some "B"], [some "1", some "2"]])).length
      = 2 + 1 ∧
    convert_table_to_markdown [[some "A", some "B"], [some "1", some "2"]] =
      String.mk (joinSep ['\n']
        (tableLinesChars (sanitizeTable [[some "A", some "B"], [some "1", some "2"]]))) := by
  have h := table_shape_amended [[some "A", some "B"], [some "1", some "2"]] 2
    (by decide) (by decide) (by decide) (by decide)
  exact ⟨h.1, h.2.2⟩

/-- A Content Block of `extract_contents`: either a text line
(`{'top': ..., 'text': ...}`) or a table (`{'top': table.bbox[1],
'table': table}`), the table carried as its extraction result. -/
inductive Content where
  | text (top : ℚ) (content : String)
  | table (top : ℚ) (rows : List (List (Option String)))
deriving DecidableEq, Repr

/-- The `'top'` key shared by both block shapes. -/
def Content.top : Content → ℚ
  | .text t _ => t
  | .table t _ => t

/-- The parts list built by `convert_contents_to_markdown` (converter.py
lines 175-184): text content is appended as is, a table is rendered and
appended only when the rendering is non-empty (Python string truthiness). -/
def contentParts : List Content → List (List Char)
  | [] => []
  | .text _ s :: rest => s.data :: contentParts rest
  | .table _ rows :: rest =>
    if convert_table_to_markdown rows = "" then contentParts rest
    else (convert_table_to_markdown rows).data :: contentParts rest

/-- Embedding of `convert_contents_to_markdown` (converter.py lines 166-186):
`'\n\n'.join(parts)`. -/
def convert_contents_to_markdown (contents : List Content) : String :=
  ⟨joinSep ['\n', '\n'] (contentParts contents)⟩

lemma contentParts_cons_table (t : ℚ) (rows : List (List (Option String)))
    (rest : List Content) :
    contentParts (.table t rows :: rest) =
      if convert_table_to_markdown rows = "" then contentParts rest
      else (convert_table_to_markdown rows).data :: contentParts rest := rfl

lemma contentParts_append (a b : List Content) :
    contentParts (a ++ b) = contentParts a ++ contentParts b := by
  induction a with
  | nil => rfl
  | cons c rest ih =>
    cases c with
    | text t s =>
      rw [List.cons_append]
      show s.data :: contentParts (rest ++ b) =
        (s.data :: contentParts rest) ++ contentParts b
      rw [ih, List.cons_append]
    | table t rows =>
      rw [List.cons_append, contentParts_cons_table, contentParts_cons_table]
      split
      · exact ih
      · rw [ih, List.cons_append]

/-- C8: a table that extracts to zero rows renders as the empty string,
and such a table block contributes no part (and no extra blank-line
separator) to the page's assembled Markdown. -/
theorem empty_table_dropped (top : ℚ) (pre post : List Content) :
    convert_table_to_markdown [] = "" ∧
    convert_contents_to_markdown (pre ++ Content.table top [] :: post) =
      convert_contents_to_markdown (pre ++ post) := by
  refine ⟨rfl, ?_⟩
  unfold convert_contents_to_markdown
  rw [contentParts_append, contentParts_append]
  have : contentParts (Content.table top [] :: post) = contentParts post := by
    rw [contentParts_cons_table,
      if_pos (show convert_table_to_markdown [] = "" from rfl)]
  rw [this]

/-- A text line of `extract_text_lines`: vertical offset and text. -/
structure TextLine where
  top : ℚ
  text : String
deriving DecidableEq, Repr

/-- A detected table of `find_tables`: the vertical offset of its bounding
box top edge (`table.bbox[1]`) and its `extract()` result. -/
structure PTable where
  bboxTop : ℚ
  rows : List (List (Option String))
deriving DecidableEq, Repr

/-- The sort key relation of converter.py line 118:
`sorted(contents, key=itemgetter('top'))`. -/
def contentLE (a b : Content) : Prop := a.top ≤ b.top

instance : DecidableRel contentLE :=
  fun a b => inferInstanceAs (Decidable (a.top ≤ b.top))

instance : IsTotal Content contentLE := ⟨fun a b => le_total a.top b.top⟩

instance : IsTrans Content contentLE := ⟨fun _ _ _ h1 h2 => le_trans h1 h2⟩

/-- The contents list as built before sorting (converter.py lines
86-115): text blocks in extraction order first, then table blocks in
detection order. -/
def pageBlocks (texts : List TextLine) (tables : List PTable) : List Content :=
  texts.map (fun ln => Content.text ln.top ln.text) ++
    tables.map (fun tb => Content.table tb.bboxTop tb.rows)

/-- The tables seen by the rest of `extract_contents` (converter.py lines
90-94): the detector's result, or zero tables when detection raised. -/
def tablesOf : Except String (List PTable) → List PTable
  | .ok ts => ts
  | .error _ => []

/-- The diagnostic printed by the table `except` branch (line 93). -/
def tableWarnings : Except String (List PTable) → List String
  | .ok _ => []
  | .error e => ["Warning: Table extraction failed: " ++ e]

/-- The text lines extracted from the non-table remainder (converter.py
lines 96-108): the remainder region is the page minus the bounding boxes
whose subtraction succeeded (a failed `outside_bbox` is skipped by
`continue`, line 102), so the line extractor is consulted on the region
determined by the successfully subtracted tables; a raising extractor
yields zero text lines. -/
def textsOf (found : Except String (List PTable)) (subtractOk : PTable → Bool)
    (extractLines : List PTable → Except String (List TextLine)) : List TextLine :=
  match extractLines ((tablesOf found).filter subtractOk) with
  | .ok ls => ls
  | .error _ => []

/-- The diagnostic printed by the text `except` branch (line 108). -/
def textWarnings (found : Except String (List PTable)) (subtractOk : PTable → Bool)
    (extractLines : List PTable → Except String (List TextLine)) : List String :=
  match extractLines ((tablesOf found).filter subtractOk) with
  | .ok _ => []
  | .error e => ["Warning: Text extraction failed: " ++ e]

/-- Embedding of `extract_contents` (converter.py lines 72-120) over the collaborator
results, paired with the list of diagnostics it prints: gather text
blocks and table blocks and stable-sort them by `'top'` (Python `sorted`
is a stable sort, embedded as insertion sort, which is extensionally the
unique stable sort by this key). -/
def extract_contents (found : Except String (List PTable)) (subtractOk : PTable → Bool)
    (extractLines : List PTable → Except String (List TextLine)) :
    List Content × List String :=
  (List.insertionSort contentLE
    (pageBlocks (textsOf found subtractOk extractLines) (tablesOf found)),
   tableWarnings found ++ textWarnings found subtractOk extractLines)

lemma filter_orderedInsert (v : ℚ) (a : Content) (l : List Content) :
    (List.orderedInsert contentLE a l).filter (fun c => decide (c.top = v)) =
      (a :: l).filter (fun c => decide (c.top = v)) := by
  induction l with
  | nil => rfl
  | cons b bs ih =>
    rw [List.orderedInsert]
    by_cases hab : contentLE a b
    · rw [if_pos hab]
    · rw [if_neg hab]
      have hlt : b.top < a.top := lt_of_not_le hab
      rw [List.filter_cons, ih, List.filter_cons, List.filter_cons, List.filter_cons]
      by_cases va : a.top = v
      · have vb : ¬ b.top = v := fun hb => absurd (hb ▸ va ▸ rfl : b.top = a.top)
          (ne_of_lt hlt)
        simp [va, vb]
      · simp [va]

lemma filter_insertionSort (v : ℚ) (l : List Content) :
    (List.insertionSort contentLE l).filter (fun c => decide (c.top = v)) =
      l.filter (fun c => decide (c.top = v)) := by
  induction l with
  | nil => rfl
  | cons a l ih =>
    rw [List.insertionSort, filter_orderedInsert, List.filter_cons,
      List.filter_cons, ih]

/-- C4: the Content Blocks returned by `extract_contents` are
non-decreasing in `'top'`, are a permutation of the discovered blocks,
and the sort is stable: for every vertical offset the blocks at that
offset appear exactly as in the pre-sort discovery order (text lines in
extraction order before tables in detection order). -/
theorem extract_contents_sorted_stable (found : Except String (List PTable))
    (subtractOk : PTable → Bool)
    (extractLines : List PTable → Except String (List TextLine)) :
    List.Sorted contentLE (extract_contents found subtractOk extractLines).1 ∧
    (extract_contents found subtractOk extractLines).1.Perm
      (pageBlocks (textsOf found subtractOk extractLines) (tablesOf found)) ∧
    ∀ v : ℚ, (extract_contents found subtractOk extractLines).1.filter
        (fun c => decide (c.top = v)) =
      (pageBlocks (textsOf found subtractOk extractLines)
        (tablesOf found)).filter (fun c => decide (c.top = v)) := by
  refine ⟨List.sorted_insertionSort contentLE _, List.perm_insertionSort contentLE _, ?_⟩
  intro v
  exact filter_insertionSort v _

/-- C6 counterexample: with one detected table whose bounding-box
subtraction fails (`outside_bbox` raises, `subtractOk` constantly false)
the failure is skipped with no diagnostic at all — the diagnostics list
is empty — contradicting "in every such case the failure is reported to
a diagnostic stream". -/
theorem extract_failure_counterexample :
    ((fun _ => false) : PTable → Bool) ⟨0, [[some "x"]]⟩ = false ∧
    (extract_contents (Except.ok [⟨0, [[some "x"]]⟩]) (fun _ => false)
      (fun _ => Except.ok [])).2 = [] :=
  ⟨rfl, rfl⟩

/-- C6 (amended): `extract_contents` never propagates a collaborator
failure: a failed table-detection pass yields zero tables (the whole page
is treated as text: every returned block is a text block) and is
reported; a failed text pass yields zero text blocks (every returned
block is a table block) and is reported; a failed per-table bounding-box
subtraction is skipped silently — the table itself is still emitted and
every diagnostic ever produced is a table-detection or text-extraction
warning, never a subtraction one. -/
theorem extract_failures_amended (found : Except String (List PTable))
    (subtractOk : PTable → Bool)
    (extractLines : List PTable → Except String (List TextLine)) :
    (∀ e, found = .error e →
      tablesOf found = [] ∧
      ("Warning: Table extraction failed: " ++ e) ∈
        (extract_contents found subtractOk extractLines).2 ∧
      ∀ c ∈ (extract_contents found subtractOk extractLines).1,
        ∃ t s, c = Content.text t s) ∧
    (∀ e, extractLines ((tablesOf found).filter subtractOk) = .error e →
      ("Warning: Text extraction failed: " ++ e) ∈
        (extract_contents found subtractOk extractLines).2 ∧
      ∀ c ∈ (extract_contents found subtractOk extractLines).1,
        ∃ t rows, c = Content.table t rows) ∧
    (∀ tb ∈ tablesOf found, subtractOk tb = false →
      Content.table tb.bboxTop tb.rows ∈
        (extract_contents found subtractOk extractLines).1) ∧
    (∀ m ∈ (extract_contents found subtractOk extractLines).2,
      (∃ e, m = "Warning: Table extraction failed: " ++ e) ∨
      (∃ e, m = "Warning: Text extraction failed: " ++ e)) := by
  refine ⟨?_, ?_, ?_, ?_⟩
  · intro e he
    subst he
    refine ⟨rfl, ?_, ?_⟩
    · show _ ∈ tableWarnings (.error e) ++ _
      simp [tableWarnings]
    · intro c hc
      rw [show (extract_contents (.error e) subtractOk extractLines).1 =
        List.insertionSort contentLE (pageBlocks
          (textsOf (.error e) subtractOk extractLines) (tablesOf (.error e)))
        from rfl, List.mem_insertionSort] at hc
      unfold pageBlocks at hc
      rw [show tablesOf (Except.error e : Except String (List PTable)) = []
        from rfl] at hc
      simp only [List.map_nil, List.append_nil] at hc
      rcases List.mem_map.mp hc with ⟨ln, _, rfl⟩
      exact ⟨ln.top, ln.text, rfl⟩
  · intro e he
    refine ⟨?_, ?_⟩
    · show _ ∈ _ ++ textWarnings found subtractOk extractLines
      unfold textWarnings
      rw [he]
      simp
    · intro c hc
      rw [show (extract_contents found subtractOk extractLines).1 =
        List.insertionSort contentLE (pageBlocks
          (textsOf found subtractOk extractLines) (tablesOf found))
        from rfl, List.mem_insertionSort] at hc
      unfold pageBlocks at hc
      rw [show textsOf found subtractOk extractLines = [] from by
        unfold textsOf
        rw [he]] at hc
      simp only [List.map_nil, List.nil_append] at hc
      rcases List.mem_map.mp hc with ⟨tb, _, rfl⟩
      exact ⟨tb.bboxTop, tb.rows, rfl⟩
  · intro tb htb _
    rw [show (extract_contents found subtractOk extractLines).1 =
      List.insertionSort contentLE (pageBlocks
        (textsOf found subtractOk extractLines) (tablesOf found))
      from rfl, List.mem_insertionSort]
    unfold pageBlocks
    exact List.mem_append_right _ (List.mem_map_of_mem _ htb)
  · intro m hm
    rcases List.mem_append.mp hm with hm1 | hm2
    · left
      cases hfound : found with
      | ok ts => rw [hfound] at hm1; simp [tableWarnings] at hm1
      | error e =>
        rw [hfound] at hm1
        simp only [tableWarnings, List.mem_singleton] at hm1
        exact ⟨e, hm1⟩
    · right
      unfold textWarnings at hm2
      cases hext : extractLines ((tablesOf found).filter subtractOk) with
      | ok ls => rw [hext] at hm2; simp at hm2
      | error e =>
        rw [hext] at hm2
        simp only [List.mem_singleton] at hm2
        exact ⟨e, hm2⟩

/-- Witness for C6 (amended): a concrete failed table detection is
reported on the diagnostics list. -/
theorem extract_failures_amended_witness :
    ("Warning: Table extraction failed: " ++ "boom") ∈
      (extract_contents (Except.error "boom") (fun _ => true)
        (fun _ => Except.ok [⟨5, "hi"⟩])).2 :=
  ((extract_failures_amended (Except.error "boom") (fun _ => true)
    (fun _ => Except.ok [⟨5, "hi"⟩])).1 "boom" rfl).2.1

/-- Dataclass `PageContent` (models.py lines 26-37). -/
structure PageContent where
  page_number : Nat
  markdown : String
  images : List String
deriving DecidableEq, Repr

/-- Dataclass `ConvertResult` (models.py lines 40-49). -/
structure ConvertResult where
  pages : List PageContent
  source_filename : String
deriving DecidableEq, Repr

/-- Python `sep.join(parts)` on strings. -/
def strJoin (sep : String) : List String → String
  | [] => ""
  | [p] => p
  | p :: ps => p ++ sep ++ strJoin sep ps

/-- Embedding of `ConvertResult.to_single_markdown` (models.py lines 51-63): the pages'
Markdown strings, each prefixed with `## Page N`, joined by the page
separator. -/
def ConvertResult.to_single_markdown (r : ConvertResult)
    (page_separator : String) : String :=
  strJoin page_separator (r.pages.map
    (fun p => "## Page " ++ toString p.page_number ++ "\n\n" ++ p.markdown))

/-- The per-page branch of `save_result` (converter.py lines 345-354) as
the list of (file name, file content) pairs it writes, in page order. -/
def save_result_per_page (pfx : String) (r : ConvertResult) :
    List (String × String) :=
  r.pages.map (fun p =>
    (pfx ++ "_page_" ++ toString p.page_number ++ ".md",
     "# Page " ++ toString p.page_number ++ "\n\n" ++ p.markdown))

/-- C9: combined-mode output is the pages' Markdown each prefixed with a
`## Page N` heading, joined by the configured separator (characterized
recursively); per-page mode produces one file per page, named
`{prefix}_page_{N}.md`, whose content is `# Page N`, a blank line, and
the page's Markdown. -/
theorem document_assembly (sep fn pfx : String) (p : PageContent)
    (ps : List PageContent) (r : ConvertResult) :
    (ConvertResult.to_single_markdown ⟨[], fn⟩ sep = "") ∧
    (ConvertResult.to_single_markdown ⟨p :: ps, fn⟩ sep =
      if ps = [] then "## Page " ++ toString p.page_number ++ "\n\n" ++ p.markdown
      else ("## Page " ++ toString p.page_number ++ "\n\n" ++ p.markdown) ++ sep ++
        ConvertResult.to_single_markdown ⟨ps, fn⟩ sep) ∧
    ((save_result_per_page pfx r).length = r.pages.length) ∧
    (∀ i, (hi : i < r.pages.length) →
      (save_result_per_page pfx r)[i]? =
        some (pfx ++ "_page_" ++ toString (r.pages.get ⟨i, hi⟩).page_number ++ ".md",
          "# Page " ++ toString (r.pages.get ⟨i, hi⟩).page_number ++ "\n\n" ++
            (r.pages.get ⟨i, hi⟩).markdown)) := by
  refine ⟨rfl, ?_, ?_, ?_⟩
  · cases ps with
    | nil => rfl
    | cons q qs =>
      rw [if_neg (by simp)]
      rfl
  · unfold save_result_per_page
    rw [List.length_map]
  · intro i hi
    unfold save_result_per_page
    rw [List.getElem?_map, List.getElem?_eq_getElem hi]
    rfl

/-- Witness for C9 at a concrete two-page document. -/
theorem document_assembly_witness :
    (save_result_per_page "doc"
      ⟨[⟨1, "hello", []⟩, ⟨2, "world", []⟩], "doc"⟩)[1]? =
      some ("doc_page_2.md", "# Page 2\n\nworld") := by
  have h := (document_assembly "\n---\n" "doc" "doc" ⟨1, "hello", []⟩ []
    ⟨[⟨1, "hello", []⟩, ⟨2, "world", []⟩], "doc"⟩).2.2.2 1 (by decide)
  rw [h]
  decide
